import Mathlib

/-!
Shallow embedding of the simulation core of `src/main.rs` (a Flappy-Bird-style
avoider game built on an ECS runtime).  Machine floats (`f32`) are modelled by
exact rationals; vectors componentwise.  A Rust function that can panic
(`unwrap`, `single_mut`) is modelled as an `Option`-returning function where
`none` is the panic.  Entity queries are modelled as lists of the queried
component tuples, in iteration order.
-/

namespace FlappyCore

/-- Vec3 models `bevy::math::Vec3` with exact rational components. -/
structure Vec3 where
  x : ℚ
  y : ℚ
  z : ℚ
deriving DecidableEq

/-- Componentwise vector addition, as `Vec3 + Vec3` in the source. -/
def Vec3.add (a b : Vec3) : Vec3 := ⟨a.x + b.x, a.y + b.y, a.z + b.z⟩

/-- Scalar multiplication on the right, as `Vec3 * f32` in the source. -/
def Vec3.smul (a : Vec3) (s : ℚ) : Vec3 := ⟨a.x * s, a.y * s, a.z * s⟩

instance : Add Vec3 := ⟨Vec3.add⟩

instance : HMul Vec3 ℚ Vec3 := ⟨Vec3.smul⟩

/-- Vec3.Y of the vector library: the unit vector along y. -/
def Vec3.unitY : Vec3 := ⟨0, 1, 0⟩

/-- Vec3.NEG_X of the vector library: minus the unit vector along x. -/
def Vec3.negX : Vec3 := ⟨-1, 0, 0⟩

/-- Vec3.NEG_Y of the vector library: minus the unit vector along y. -/
def Vec3.negY : Vec3 := ⟨0, -1, 0⟩

/-- UP_SPEED constant of `main.rs`. -/
def UP_SPEED : ℚ := 500

/-- GRAVITY constant of `main.rs`. -/
def GRAVITY : ℚ := -2000

/-- ANGLE_AMPLITUDE constant of `main.rs`. -/
def ANGLE_AMPLITUDE : ℚ := 8/10

/-- PIPE_START_SPEED constant of `main.rs`. -/
def PIPE_START_SPEED : ℚ := 100

/-- PIPE_MAX_SPEED constant of `main.rs`. -/
def PIPE_MAX_SPEED : ℚ := 1000

/-- PIPE_TIME_TO_MAX constant of `main.rs`. -/
def PIPE_TIME_TO_MAX : ℚ := 60

/-- PIPE_GAP constant of `main.rs`. -/
def PIPE_GAP : ℚ := 500

/-- Window width fixed in `main`: `WindowResolution::new(1280.0, 720.0)`. -/
def WINDOW_WIDTH : ℚ := 1280

/-- Left boundary computed inside `reuse_pipes`:
`-WINDOW_SIZE.width() / 2.0 - 100.0`. -/
def left_border : ℚ := -WINDOW_WIDTH / 2 - 100

/-- Right boundary computed inside `startup`:
`WINDOW_SIZE.width() / 2.0 + 100.0`. -/
def right_border : ℚ := WINDOW_WIDTH / 2 + 100

/-- The f32 constant `std::f32::consts::FRAC_PI_2` (nearest f32 to pi/2),
exactly 13176795 / 2^23. -/
def FRAC_PI_2 : ℚ := 13176795 / 8388608

/-- Movable component of `main.rs`: per-entity velocity and acceleration. -/
structure Movable where
  velocity : Vec3
  acceleration : Vec3
deriving DecidableEq

/-- One entity as seen by the kinematic systems: its `Movable` component
together with its `Transform`'s translation. -/
structure Entity where
  movable : Movable
  translation : Vec3
deriving DecidableEq

/-- Obstacle x-position: the x component of the entity's translation. -/
def xpos (e : Entity) : ℚ := e.translation.x

/-- Body of the `apply_acceleration` system for one queried `Movable`:
`movable.velocity = movable.velocity + movable.acceleration * dt`. -/
def apply_acceleration_one (dt : ℚ) (m : Movable) : Movable :=
  { m with velocity := m.velocity + m.acceleration * dt }

/-- The `apply_acceleration` system over its whole query (all `Movable`s),
in iteration order. -/
def apply_acceleration (dt : ℚ) (es : List Entity) : List Entity :=
  es.map (fun e => { e with movable := apply_acceleration_one dt e.movable })

/-- Body of the `apply_velocity` system for one queried
`(&Movable, &mut Transform)` pair:
`transform.translation += movable.velocity * dt`. -/
def apply_velocity_one (dt : ℚ) (m : Movable) (translation : Vec3) : Vec3 :=
  translation + m.velocity * dt

/-- The `apply_velocity` system over its whole query. -/
def apply_velocity (dt : ℚ) (es : List Entity) : List Entity :=
  es.map (fun e => { e with translation := apply_velocity_one dt e.movable e.translation })

/-- One entity put through one tick of the movement integrator:
`apply_acceleration` runs first (it is scheduled `.after(jump)` and
`apply_velocity` is scheduled `.after(apply_acceleration)`). -/
def integrate (dt : ℚ) (e : Entity) : Entity :=
  { movable := apply_acceleration_one dt e.movable
    translation := apply_velocity_one dt (apply_acceleration_one dt e.movable) e.translation }

/-- The `jump` system.  `pressed` models `keyboard_input.pressed(Space)`;
`players` is the query `Query<&mut Movable, With<Player>>` in iteration order.
`query.single_mut()` panics (`none`) unless the query matches exactly one
entity; the body overwrites that player's whole velocity vector with
`Vec3::Y * UP_SPEED`. -/
def jump (pressed : Bool) (players : List Movable) : Option (List Movable) :=
  if pressed then
    match players with
    | [m] => some [{ m with velocity := Vec3.unitY * UP_SPEED }]
    | _ => none
  else
    some players

/-- Clamped tilt angle computed in the body of `rotate`:
`((movable.velocity.y / UP_SPEED) * ANGLE_AMPLITUDE).clamp(-FRAC_PI_2, FRAC_PI_2)`. -/
def tiltAngle (m : Movable) : ℚ :=
  min (max (m.velocity.y / UP_SPEED * ANGLE_AMPLITUDE) (-FRAC_PI_2)) FRAC_PI_2

/-- The `rotate` system.  Its query is `(&mut Transform, &Movable)` with
`With<Player>`; the body is a plain `for` loop over every match, writing the
rotation derived from the velocity.  The transform's rotation is modelled by
the angle of the quaternion `Quat::from_axis_angle(Vec3::Z, angle)`.
The function is total: the loop body contains no panicking operation. -/
def rotate (q : List (ℚ × Movable)) : List (ℚ × Movable) :=
  q.map (fun tm => (tiltAngle tm.2, tm.2))

/-- The fold step of Rust's `Iterator::max_by` as instantiated in
`reuse_pipes`: keep the later element when the x components tie. -/
def maxStep (acc u : Vec3) : Vec3 :=
  if acc.x ≤ u.x then u else acc

/-- `query.iter().map(|x| x.translation).max_by(... partial_cmp on x ...)`:
`none` on an empty iterator (the source then panics on `unwrap`). -/
def max_by_x : List Vec3 → Option Vec3
  | [] => none
  | t :: ts => some (ts.foldl maxStep t)

/-- The `for` loop of `reuse_pipes`, threading the `farther_position` local:
a pipe whose translation.x is below the left border has its whole translation
overwritten with `farther_position`, then its x increased by the gap, and
`farther_position` is updated to the pipe's new translation. -/
def reuse_go (L G : ℚ) (farther : Vec3) : List Entity → List Entity
  | [] => []
  | p :: ps =>
    if p.translation.x < L then
      { p with translation := ⟨farther.x + G, farther.y, farther.z⟩ } ::
        reuse_go L G ⟨farther.x + G, farther.y, farther.z⟩ ps
    else
      p :: reuse_go L G farther ps

/-- The `reuse_pipes` system over the pipe query (left border `L` and gap `G`
are the constants `left_border` and `PIPE_GAP` in the source).  `none` models
the `unwrap` panic when the pool is empty. -/
def reuse_pipes (L G : ℚ) (ps : List Entity) : Option (List Entity) :=
  match max_by_x (ps.map Entity.translation) with
  | none => none
  | some farther => some (reuse_go L G farther ps)

/-- Load states reported by the asset server; `post_loading` only
distinguishes `loaded` from everything else. -/
inductive LoadState where
  | notLoaded
  | loading
  | loaded
  | failed
deriving DecidableEq

/-- A pending load bundle: its resource handles and its one-shot `on_load`
continuation, identified by an id (closures are modelled by their identity;
invoking one is recorded, not interpreted). -/
structure LoadingBundle where
  handles : List ℕ
  callbackId : ℕ
deriving DecidableEq

/-- The readiness test of `post_loading`:
`bundles[i].handles.iter().all(|h| matches!(get_load_state(h), Loaded))`. -/
def allLoaded (status : ℕ → LoadState) (b : LoadingBundle) : Bool :=
  b.handles.all (fun h => status h == LoadState.loaded)

/-- The `post_loading` system for one tick: the `while` loop walks the pending
list; a bundle whose handles are all loaded is removed and its continuation
invoked (recorded in the second component, in firing order); otherwise it
stays.  `status` is the asset server's view during this tick. -/
def post_loading (status : ℕ → LoadState) :
    List LoadingBundle → List LoadingBundle × List LoadingBundle
  | [] => ([], [])
  | b :: bs =>
    let r := post_loading status bs
    if allLoaded status b then (r.1, b :: r.2) else (b :: r.1, r.2)

/-- Pending list after `t` ticks of `post_loading`, starting from `bs0`;
`status t` is the asset server's view during tick `t`. -/
def pendingAt (status : ℕ → ℕ → LoadState) (bs0 : List LoadingBundle) : ℕ → List LoadingBundle
  | 0 => bs0
  | t + 1 => (post_loading (status t) (pendingAt status bs0 t)).1

/-- Bundles whose continuations fire during tick `t` (tick `t` transforms
`pendingAt t` into `pendingAt (t+1)`). -/
def firedAt (status : ℕ → ℕ → LoadState) (bs0 : List LoadingBundle) (t : ℕ) :
    List LoadingBundle :=
  (post_loading (status t) (pendingAt status bs0 t)).2

/-- The Movable every pipe is spawned with in `startup`. -/
def pipeMovable : Movable :=
  { velocity := Vec3.negX * PIPE_START_SPEED
    acceleration := Vec3.negX * ((PIPE_MAX_SPEED - PIPE_START_SPEED) / PIPE_TIME_TO_MAX) }

/-- The pipe pool spawned by `startup`: ten pipes at
`right_border + i * PIPE_GAP`, with random vertical offsets `ys i` and z = 0. -/
def startupPipes (ys : ℕ → ℚ) : List Entity :=
  (List.range 10).map
    (fun (i : ℕ) => { movable := pipeMovable
                      translation := ⟨right_border + (i : ℚ) * PIPE_GAP, ys i, 0⟩ })

/-- One pipe tick: the movement integrator followed by the recycler
(both sub-steps preserve the spacing invariant, so their order within the
tick is immaterial). -/
def pipeTick (L G dt : ℚ) (es : List Entity) : Option (List Entity) :=
  reuse_pipes L G (apply_velocity dt (apply_acceleration dt es))

/-- Iterated pipe ticks with per-tick durations `dts`. -/
def runTicks (L G : ℚ) : List ℚ → List Entity → Option (List Entity)
  | [], es => some es
  | dt :: rest, es =>
    match pipeTick L G dt es with
    | none => none
    | some es2 => runTicks L G rest es2

/-- Multiset of the obstacle x-positions of a pool. -/
def xMs (es : List Entity) : Multiset ℚ := (es.map xpos : List ℚ)

/-- Arithmetic progression of length `N`, start `a`, step `G`, in increasing
order: the canonical shape of the pool's sorted x-positions. -/
def canonList (a G : ℚ) (N : ℕ) : List ℚ :=
  (List.range N).map (fun (i : ℕ) => a + (i : ℚ) * G)

/-- Positions handed out to the pipes recycled in one run of `reuse_pipes`:
`base + G, base + 2G, ..., base + kG`, mirroring how the loop threads the
`farther_position` local. -/
def shifts (base G : ℚ) : ℕ → Multiset ℚ
  | 0 => 0
  | k + 1 => (base + G) ::ₘ shifts (base + G) G k

/-- Invariant carried through the pipe ticks: every pipe has the same
kinematic state, and the pool's x-positions are some length-`N`
`G`-spaced arithmetic progression. -/
def PoolInv (G : ℚ) (N : ℕ) (es : List Entity) : Prop :=
  (∃ mv, ∀ e ∈ es, e.movable = mv) ∧ ∃ a, xMs es = (canonList a G N : Multiset ℚ)

/-- Asset-server history for the loading-gate scenario of the spec: handle 0
is loaded from tick 0 on, handle 1 only from tick 1 on. -/
def twoPhaseStatus (t h : ℕ) : LoadState :=
  if h = 0 ∨ 1 ≤ t then LoadState.loaded else LoadState.loading

/-- Load bundle with handles 0 and 1 and continuation id 0. -/
def twoHandleBundle : LoadingBundle := ⟨[0, 1], 0⟩

/-- Asset-server history where every handle is stuck loading forever. -/
def stuckStatus (_ _ : ℕ) : LoadState := LoadState.loading

/-- Load bundle with the single handle 5 and continuation id 7. -/
def oneHandleBundle : LoadingBundle := ⟨[5], 7⟩

/-!
Theorems.  Helper lemmas come first; each claim's theorem carries the claim
id in its doc comment.
-/

/-- Unfolding lemma for vector addition. -/
@[simp] theorem Vec3.add_def (a b : Vec3) :
    a + b = ⟨a.x + b.x, a.y + b.y, a.z + b.z⟩ := rfl

/-- Unfolding lemma for vector-scalar multiplication. -/
@[simp] theorem Vec3.smul_def (a : Vec3) (s : ℚ) :
    a * s = ⟨a.x * s, a.y * s, a.z * s⟩ := rfl

/-- C1: one simulation tick of duration `dt` first updates velocity to
`v0 + a*dt` (`apply_acceleration`), then updates position with the
just-updated velocity (`apply_velocity`), so after the tick
`velocity = v0 + a*dt` and `position = p0 + (v0 + a*dt)*dt`, and the
acceleration is untouched; in particular with `a = (0,-2000,0)`,
`v0 = (0,0,0)`, `p0 = (0,0,0)`, `dt = 0.1` the result is
`velocity = (0,-200,0)` and `position = (0,-20,0)`. -/
theorem semi_implicit_euler_tick :
    (∀ (dt : ℚ) (e : Entity),
      apply_velocity dt (apply_acceleration dt [e]) =
        [{ movable := { velocity := e.movable.velocity + e.movable.acceleration * dt
                        acceleration := e.movable.acceleration }
           translation :=
             e.translation + (e.movable.velocity + e.movable.acceleration * dt) * dt }]) ∧
    apply_velocity (1/10) (apply_acceleration (1/10)
        [{ movable := { velocity := ⟨0, 0, 0⟩, acceleration := Vec3.unitY * GRAVITY }
           translation := ⟨0, 0, 0⟩ }]) =
      [{ movable := { velocity := ⟨0, -200, 0⟩, acceleration := ⟨0, -2000, 0⟩ }
         translation := ⟨0, -20, 0⟩ }] := by
  refine ⟨fun dt e => rfl, ?_⟩
  norm_num [apply_velocity, apply_acceleration, apply_acceleration_one,
    apply_velocity_one, Vec3.unitY, GRAVITY]

/-- C9: running `reuse_pipes` on an empty obstacle pool hits
`max_by(...).unwrap()` on an empty iterator, which panics (modelled as
`none`), for any left border and gap. -/
theorem reuse_pipes_empty_pool_fatal : ∀ (L G : ℚ), reuse_pipes L G [] = none :=
  fun _ _ => rfl

/-- C5 counterexample: with prior velocity `(7, -300, 0)` and the jump trigger
active, `jump` overwrites the whole velocity vector with `(0, 500, 0)`; the
horizontal component changes from 7 to 0, so the mapper does not leave the
horizontal velocity alone as the claim states. -/
theorem jump_zeroes_horizontal_velocity_cex :
    jump true [{ velocity := ⟨7, -300, 0⟩, acceleration := ⟨0, -2000, 0⟩ }]
      = some [{ velocity := ⟨0, 500, 0⟩, acceleration := ⟨0, -2000, 0⟩ }] ∧
    (7 : ℚ) ≠ 0 := by
  refine ⟨?_, by norm_num⟩
  norm_num [jump, UP_SPEED, Vec3.unitY]

/-- C5 (amended): on a tick where the jump trigger is active and exactly one
player exists, `jump` overwrites the player's entire velocity vector with
`(0, UP_SPEED, 0)`: the vertical velocity becomes exactly `UP_SPEED`
regardless of its prior value (including residual downward velocity), the
horizontal components are reset to zero (a no-op in reachable states, where
they are always zero), and the acceleration is unchanged. -/
theorem jump_overwrites_whole_velocity (m : Movable) :
    jump true [m] = some [{ m with velocity := ⟨0, UP_SPEED, 0⟩ }] := by
  norm_num [jump, UP_SPEED, Vec3.unitY]

/-- C6 counterexample: with zero entities tagged `Player`, the Orientation
Mapper (`rotate`) returns normally as a silent no-op (its body is a plain
`for` loop with no panicking operation), and the Input Mapper (`jump`) with
the trigger inactive also returns normally; the claim says both runs must be
fatal. -/
theorem zero_players_not_fatal_cex :
    rotate [] = [] ∧ jump false [] = some [] := ⟨rfl, rfl⟩

/-- C6 (amended): with zero or several `Player` entities, `jump` is fatal
only on ticks where the jump trigger is active (`single_mut` panics); with
the trigger inactive it is a no-op.  `rotate` is never fatal: it iterates
over every match, so it silently no-ops on zero players and processes each
of several. -/
theorem player_cardinality_fatality (players : List Movable) (q : List (ℚ × Movable))
    (h : players.length ≠ 1) :
    jump true players = none ∧ jump false players = some players ∧
    (rotate q).length = q.length := by
  refine ⟨?_, rfl, by simp [rotate]⟩
  match players, h with
  | [], _ => rfl
  | [m], h => exact absurd rfl h
  | m :: m' :: tl, _ => rfl

/-- Witness for the amended C6 theorem at the concrete input of zero player
entities and the jump trigger active. -/
theorem player_cardinality_fatality_witness : jump true [] = none :=
  (player_cardinality_fatality [] [] (by decide)).1

/-- Helper: the recycler loop threads past a block of pipes that are not past
the left border without touching them or the farther-position register. -/
theorem reuse_go_append (L G : ℚ) (f : Vec3) (xs rest : List Entity)
    (hxs : ∀ p ∈ xs, ¬ p.translation.x < L) :
    reuse_go L G f (xs ++ rest) = xs ++ reuse_go L G f rest := by
  induction xs with
  | nil => rfl
  | cons p xs ih =>
    have hp : ¬ p.translation.x < L := hxs p (by simp)
    simp only [List.cons_append, reuse_go, if_neg hp]
    exact congrArg (p :: ·) (ih (fun q hq => hxs q (by simp [hq])))

/-- Helper: the recycler loop never touches any pipe's Movable component. -/
theorem reuse_go_map_movable (L G : ℚ) (f : Vec3) (ps : List Entity) :
    (reuse_go L G f ps).map Entity.movable = ps.map Entity.movable := by
  induction ps generalizing f with
  | nil => rfl
  | cons p ps ih =>
    by_cases h : p.translation.x < L
    · simp only [reuse_go, if_pos h, List.map_cons, ih]
    · simp only [reuse_go, if_neg h, List.map_cons, ih]

/-- Helper: one step of the recycler loop on a pipe past the left border:
its translation is overwritten with the farther position, x bumped by the
gap, and the farther-position register takes the pipe's new translation. -/
theorem reuse_go_cons_cross (L G : ℚ) (f : Vec3) (p : Entity) (ps : List Entity)
    (hp : p.translation.x < L) :
    reuse_go L G f (p :: ps)
      = { p with translation := ⟨f.x + G, f.y, f.z⟩ } ::
          reuse_go L G ⟨f.x + G, f.y, f.z⟩ ps := by
  simp only [reuse_go, if_pos hp]

/-- Helper: the recycler loop is the identity on a pool with no pipe past
the left border. -/
theorem reuse_go_no_cross (L G : ℚ) (f : Vec3) (zs : List Entity)
    (h : ∀ p ∈ zs, ¬ p.translation.x < L) :
    reuse_go L G f zs = zs := by
  have h2 := reuse_go_append L G f zs [] h
  simpa [reuse_go] using h2

/-- C2: in one run of `reuse_pipes`, each obstacle past the left border is
moved to the tracked rightmost position plus the gap, and the tracked
rightmost is updated before the next obstacle is examined; hence two
obstacles crossing in the same tick land at `rightmost + G` and
`rightmost + 2G` respectively — never both at `rightmost + G`. -/
theorem reuse_pipes_two_crossers (L G : ℚ) (hG : G ≠ 0)
    (xs ys zs : List Entity) (a b : Entity) (m : Vec3)
    (hmax : max_by_x ((xs ++ (a :: (ys ++ (b :: zs)))).map Entity.translation) = some m)
    (ha : a.translation.x < L) (hb : b.translation.x < L)
    (hxs : ∀ p ∈ xs, ¬ p.translation.x < L) (hys : ∀ p ∈ ys, ¬ p.translation.x < L)
    (hzs : ∀ p ∈ zs, ¬ p.translation.x < L) :
    reuse_pipes L G (xs ++ (a :: (ys ++ (b :: zs))))
      = some (xs ++ ({ a with translation := ⟨m.x + G, m.y, m.z⟩ } ::
          (ys ++ ({ b with translation := ⟨m.x + 2 * G, m.y, m.z⟩ } :: zs)))) ∧
    m.x + G ≠ m.x + 2 * G := by
  constructor
  · have hre : reuse_pipes L G (xs ++ (a :: (ys ++ (b :: zs))))
        = some (reuse_go L G m (xs ++ (a :: (ys ++ (b :: zs))))) := by
      unfold reuse_pipes
      rw [hmax]
    rw [hre, reuse_go_append L G m xs _ hxs, reuse_go_cons_cross L G m a _ ha,
      reuse_go_append L G _ ys _ hys, reuse_go_cons_cross L G _ b zs hb,
      reuse_go_no_cross L G _ zs hzs]
    have h2 : (⟨m.x + G, m.y, m.z⟩ : Vec3).x + G = m.x + 2 * G := by
      show m.x + G + G = m.x + 2 * G
      ring
    rw [h2]
  · intro hEq
    apply hG
    linarith

/-- Witness for C2: a three-pipe pool in which the first two pipes have
crossed the left border; with the rightmost pipe at x = 700, they are
recycled to x = 1200 and x = 1700 respectively. -/
theorem reuse_pipes_two_crossers_witness :
    reuse_pipes left_border PIPE_GAP
        [{ movable := pipeMovable, translation := ⟨-800, 1, 0⟩ },
         { movable := pipeMovable, translation := ⟨-900, 2, 0⟩ },
         { movable := pipeMovable, translation := ⟨700, 3, 0⟩ }]
      = some [{ movable := pipeMovable, translation := ⟨700 + 500, 3, 0⟩ },
              { movable := pipeMovable, translation := ⟨700 + 2 * 500, 3, 0⟩ },
              { movable := pipeMovable, translation := ⟨700, 3, 0⟩ }] :=
  (reuse_pipes_two_crossers left_border PIPE_GAP (by norm_num [PIPE_GAP])
    [] [] [{ movable := pipeMovable, translation := ⟨700, 3, 0⟩ }]
    { movable := pipeMovable, translation := ⟨-800, 1, 0⟩ }
    { movable := pipeMovable, translation := ⟨-900, 2, 0⟩ }
    ⟨700, 3, 0⟩
    (by norm_num [max_by_x, maxStep])
    (by norm_num [left_border, WINDOW_WIDTH])
    (by norm_num [left_border, WINDOW_WIDTH])
    (by simp) (by simp)
    (by norm_num [left_border, WINDOW_WIDTH])).1

/-- C10: a recycled obstacle's whole translation vector is overwritten with
the tracked rightmost position — y and z included — and only then is x
increased by the gap; its own previous vertical offset is discarded in
favour of the rightmost obstacle's. -/
theorem reuse_overwrites_whole_translation (L G : ℚ)
    (xs zs : List Entity) (a : Entity) (m : Vec3)
    (hmax : max_by_x ((xs ++ (a :: zs)).map Entity.translation) = some m)
    (ha : a.translation.x < L)
    (hxs : ∀ p ∈ xs, ¬ p.translation.x < L)
    (hzs : ∀ p ∈ zs, ¬ p.translation.x < L) :
    reuse_pipes L G (xs ++ (a :: zs))
      = some (xs ++ ({ a with translation := ⟨m.x + G, m.y, m.z⟩ } :: zs)) := by
  have hre : reuse_pipes L G (xs ++ (a :: zs))
      = some (reuse_go L G m (xs ++ (a :: zs))) := by
    unfold reuse_pipes
    rw [hmax]
  rw [hre, reuse_go_append L G m xs _ hxs, reuse_go_cons_cross L G m a zs ha,
    reuse_go_no_cross L G _ zs hzs]

/-- Witness for C10: a crossed pipe with vertical offset 42 is teleported to
the rightmost pipe's translation (vertical offset 3) with x bumped by the
gap; its own vertical offset is gone. -/
theorem reuse_overwrites_whole_translation_witness :
    reuse_pipes left_border PIPE_GAP
        [{ movable := pipeMovable, translation := ⟨-800, 42, 0⟩ },
         { movable := pipeMovable, translation := ⟨700, 3, 0⟩ }]
      = some [{ movable := pipeMovable, translation := ⟨700 + 500, 3, 0⟩ },
              { movable := pipeMovable, translation := ⟨700, 3, 0⟩ }] :=
  reuse_overwrites_whole_translation left_border PIPE_GAP
    [] [{ movable := pipeMovable, translation := ⟨700, 3, 0⟩ }]
    { movable := pipeMovable, translation := ⟨-800, 42, 0⟩ }
    ⟨700, 3, 0⟩
    (by norm_num [max_by_x, maxStep])
    (by norm_num [left_border, WINDOW_WIDTH])
    (by simp)
    (by norm_num [left_border, WINDOW_WIDTH])

/-- Helper: whenever `reuse_pipes` completes, the pool's Movable components
are untouched. -/
theorem reuse_pipes_map_movable (L G : ℚ) (ps qs : List Entity)
    (h : reuse_pipes L G ps = some qs) :
    qs.map Entity.movable = ps.map Entity.movable := by
  unfold reuse_pipes at h
  cases hm : max_by_x (ps.map Entity.translation) with
  | none => rw [hm] at h; cases h
  | some m =>
    rw [hm] at h
    cases h
    exact reuse_go_map_movable L G m ps

/-- C7: `reuse_pipes` queries only `&mut Transform`; whenever it completes,
every obstacle's velocity and acceleration are exactly what they were before
it ran — recycling mutates positions only. -/
theorem reuse_pipes_preserves_kinematics (L G : ℚ) (ps qs : List Entity)
    (h : reuse_pipes L G ps = some qs) :
    qs.map Entity.movable = ps.map Entity.movable :=
  reuse_pipes_map_movable L G ps qs h

/-- Witness for C7 at a concrete one-pipe pool that is not recycled. -/
theorem reuse_pipes_preserves_kinematics_witness :
    ([({ movable := pipeMovable, translation := ⟨0, 0, 0⟩ } : Entity)].map Entity.movable)
      = ([({ movable := pipeMovable, translation := ⟨0, 0, 0⟩ } : Entity)].map Entity.movable) :=
  reuse_pipes_preserves_kinematics left_border PIPE_GAP _ _
    (by norm_num [reuse_pipes, max_by_x, reuse_go, left_border, WINDOW_WIDTH])

/-- Helper: one run of `post_loading` conserves bundle occurrences — every
occurrence either stays pending or fires, and nothing is duplicated. -/
theorem post_loading_count (s : ℕ → LoadState) (bs : List LoadingBundle) (b : LoadingBundle) :
    (post_loading s bs).1.count b + (post_loading s bs).2.count b = bs.count b := by
  induction bs with
  | nil => rfl
  | cons c bs ih =>
    simp only [post_loading]
    by_cases h : allLoaded s c = true
    · rw [if_pos h]
      by_cases hbc : b = c
      · subst hbc
        simp only [List.count_cons_self]
        omega
      · simp only [List.count_cons_of_ne hbc]
        omega
    · rw [if_neg h]
      by_cases hbc : b = c
      · subst hbc
        simp only [List.count_cons_self]
        omega
      · simp only [List.count_cons_of_ne hbc]
        omega

/-- Helper: a bundle whose handles are all loaded this tick never stays in
the pending list `post_loading` leaves behind. -/
theorem post_loading_ready_not_pending (s : ℕ → LoadState) (bs : List LoadingBundle)
    (b : LoadingBundle) (hb : allLoaded s b = true) :
    (post_loading s bs).1.count b = 0 := by
  induction bs with
  | nil => rfl
  | cons c bs ih =>
    simp only [post_loading]
    by_cases h : allLoaded s c = true
    · simpa [h] using ih
    · have hbc : b ≠ c := by
        intro e
        rw [e] at hb
        exact h hb
      simp [h, List.count_cons_of_ne hbc, ih]

/-- Helper: a bundle that is not fully loaded this tick never fires this
tick. -/
theorem post_loading_unready_not_fired (s : ℕ → LoadState) (bs : List LoadingBundle)
    (b : LoadingBundle) (hb : allLoaded s b = false) :
    (post_loading s bs).2.count b = 0 := by
  induction bs with
  | nil => rfl
  | cons c bs ih =>
    simp only [post_loading]
    by_cases h : allLoaded s c = true
    · have hbc : b ≠ c := by
        intro e
        rw [e] at hb
        rw [h] at hb
        cases hb
      simp [h, List.count_cons_of_ne hbc, ih]
    · simpa [h] using ih

/-- Helper: a pending bundle that is not fully loaded this tick is still
pending after `post_loading` runs. -/
theorem post_loading_unready_stays (s : ℕ → LoadState) (bs : List LoadingBundle)
    (b : LoadingBundle) (hb : allLoaded s b = false) (hmem : b ∈ bs) :
    b ∈ (post_loading s bs).1 := by
  induction bs with
  | nil => cases hmem
  | cons c bs ih =>
    simp only [post_loading]
    by_cases h : allLoaded s c = true
    · have hbc : b ≠ c := by
        intro e
        rw [e] at hb
        rw [h] at hb
        cases hb
      rcases List.mem_cons.mp hmem with he | hm
      · exact absurd he hbc
      · simpa [h] using ih hm
    · rcases List.mem_cons.mp hmem with he | hm
      · simp [h, he]
      · simp [h, ih hm]

/-- Helper: per-bundle pending occurrences never increase from tick to
tick. -/
theorem pendingAt_count_succ_le (status : ℕ → ℕ → LoadState) (bs0 : List LoadingBundle)
    (b : LoadingBundle) (t : ℕ) :
    (pendingAt status bs0 (t + 1)).count b ≤ (pendingAt status bs0 t).count b := by
  have h := post_loading_count (status t) (pendingAt status bs0 t) b
  simp only [pendingAt]
  omega

/-- Helper: once a bundle has left the pending list it never returns. -/
theorem pendingAt_zero_stable (status : ℕ → ℕ → LoadState) (bs0 : List LoadingBundle)
    (b : LoadingBundle) (t : ℕ) (h0 : (pendingAt status bs0 t).count b = 0) :
    ∀ d, (pendingAt status bs0 (t + d)).count b = 0 := by
  intro d
  induction d with
  | zero => exact h0
  | succ d ih =>
    have hle := pendingAt_count_succ_le status bs0 b (t + d)
    have : t + (d + 1) = (t + d) + 1 := by omega
    rw [this]
    omega

/-- C3: a pending load bundle occurring once in the pending list fires its
continuation exactly once, on the first tick `T` at which all its handles
report loaded; it fires on no other tick and is absent from the pending list
on every later tick. -/
theorem loading_gate_single_fire (status : ℕ → ℕ → LoadState) (bs0 : List LoadingBundle)
    (b : LoadingBundle) (T : ℕ)
    (hcount : bs0.count b = 1)
    (hT : allLoaded (status T) b = true)
    (hbefore : ∀ t < T, allLoaded (status t) b = false) :
    (firedAt status bs0 T).count b = 1 ∧
    (∀ t, t ≠ T → (firedAt status bs0 t).count b = 0) ∧
    (∀ t, T < t → b ∉ pendingAt status bs0 t) := by
  have hpend : ∀ t, t ≤ T → (pendingAt status bs0 t).count b = 1 := by
    intro t
    induction t with
    | zero => exact fun _ => hcount
    | succ t ih =>
      intro ht
      have h1 := ih (Nat.le_of_succ_le ht)
      have hnl := hbefore t (Nat.lt_of_succ_le ht)
      have hz := post_loading_unready_not_fired (status t) (pendingAt status bs0 t) b hnl
      have hsum := post_loading_count (status t) (pendingAt status bs0 t) b
      simp only [pendingAt]
      omega
  have hzero : (pendingAt status bs0 (T + 1)).count b = 0 := by
    have h1 := hpend T le_rfl
    have hz := post_loading_ready_not_pending (status T) (pendingAt status bs0 T) b hT
    simp only [pendingAt]
    omega
  have hafter : ∀ t, T < t → (pendingAt status bs0 t).count b = 0 := by
    intro t ht
    have hd : t = (T + 1) + (t - T - 1) := by omega
    rw [hd]
    exact pendingAt_zero_stable status bs0 b (T + 1) hzero _
  refine ⟨?_, ?_, ?_⟩
  · have h1 := hpend T le_rfl
    have hz := post_loading_ready_not_pending (status T) (pendingAt status bs0 T) b hT
    have hsum := post_loading_count (status T) (pendingAt status bs0 T) b
    unfold firedAt
    omega
  · intro t hne
    rcases Nat.lt_or_ge t T with hlt | hge
    · exact post_loading_unready_not_fired (status t) (pendingAt status bs0 t) b (hbefore t hlt)
    · have ht : T < t := lt_of_le_of_ne hge (Ne.symm hne)
      have hp := hafter t ht
      have hsum := post_loading_count (status t) (pendingAt status bs0 t) b
      unfold firedAt
      omega
  · intro t ht
    exact List.count_eq_zero.mp (hafter t ht)

/-- Witness for C3: the spec's two-handle scenario — handle 0 loaded from the
start, handle 1 loaded only from tick 1 — fires the bundle's continuation on
tick 1, exactly once on that tick. -/
theorem loading_gate_single_fire_witness :
    (firedAt twoPhaseStatus [twoHandleBundle] 1).count twoHandleBundle = 1 :=
  (loading_gate_single_fire twoPhaseStatus [twoHandleBundle] twoHandleBundle 1
    (by decide) (by decide) (by decide)).1

/-- C4: a pending bundle one of whose handles never reaches the loaded state
stays in the pending list at every tick and its continuation never fires. -/
theorem loading_gate_never_fire (status : ℕ → ℕ → LoadState) (bs0 : List LoadingBundle)
    (b : LoadingBundle) (h : ℕ)
    (hmem : b ∈ bs0) (hh : h ∈ b.handles)
    (hstuck : ∀ t, status t h ≠ LoadState.loaded) :
    ∀ t, b ∈ pendingAt status bs0 t ∧ (firedAt status bs0 t).count b = 0 := by
  have hnl : ∀ t, allLoaded (status t) b = false := by
    intro t
    rw [Bool.eq_false_iff]
    intro hall
    have hp := List.all_eq_true.mp hall h hh
    exact hstuck t (by simpa using hp)
  have hmemAt : ∀ t, b ∈ pendingAt status bs0 t := by
    intro t
    induction t with
    | zero => exact hmem
    | succ t ih =>
      exact post_loading_unready_stays (status t) (pendingAt status bs0 t) b (hnl t) ih
  intro t
  exact ⟨hmemAt t,
    post_loading_unready_not_fired (status t) (pendingAt status bs0 t) b (hnl t)⟩

/-- Witness for C4: a single-handle bundle whose handle is stuck loading is
still pending at tick 3. -/
theorem loading_gate_never_fire_witness :
    oneHandleBundle ∈ pendingAt stuckStatus [oneHandleBundle] 3 :=
  (loading_gate_never_fire stuckStatus [oneHandleBundle] oneHandleBundle 5
    (by decide) (by decide) (by intro t; simp [stuckStatus]) 3).1

/-- Helper: peeling the first element of an arithmetic-progression list. -/
theorem canonList_succ (a G : ℚ) (N : ℕ) :
    canonList a G (N + 1) = a :: canonList (a + G) G N := by
  unfold canonList
  rw [List.range_succ_eq_map, List.map_cons, List.map_map]
  congr 1
  · norm_num
  · have hfg : ((fun (i : ℕ) => a + (i : ℚ) * G) ∘ Nat.succ)
        = (fun (i : ℕ) => a + G + (i : ℚ) * G) := by
      funext i
      show a + ((i + 1 : ℕ) : ℚ) * G = a + G + (i : ℚ) * G
      push_cast
      ring
    rw [hfg]

/-- Helper: splitting an arithmetic-progression list at an index. -/
theorem canonList_split (a G : ℚ) (k j : ℕ) :
    canonList a G (k + j) = canonList a G k ++ canonList (a + (k : ℚ) * G) G j := by
  induction k generalizing a with
  | zero =>
    simp only [Nat.zero_add, Nat.cast_zero, zero_mul, add_zero]
    rfl
  | succ k ih =>
    rw [Nat.succ_add, canonList_succ, ih (a + G), canonList_succ]
    have h : a + G + (k : ℚ) * G = a + ((k + 1 : ℕ) : ℚ) * G := by
      push_cast
      ring
    rw [h]
    rfl

/-- Helper: the positions handed out by the recycling loop form the
arithmetic progression starting one gap above the base. -/
theorem shifts_eq_canon (G : ℚ) (k : ℕ) :
    ∀ b : ℚ, shifts b G k = (canonList (b + G) G k : Multiset ℚ) := by
  induction k with
  | zero => intro b; rfl
  | succ k ih =>
    intro b
    rw [shifts, ih (b + G), canonList_succ, ← Multiset.cons_coe]

/-- Helper: the seed of the max-fold never exceeds the result. -/
theorem foldl_maxStep_seed_le (ts : List Vec3) :
    ∀ t : Vec3, t.x ≤ (ts.foldl maxStep t).x := by
  induction ts with
  | nil => intro t; exact le_refl _
  | cons v ts ih =>
    intro t
    refine le_trans ?_ (ih (maxStep t v))
    unfold maxStep
    split
    · next h => exact h
    · exact le_refl _

/-- Helper: the max-fold returns one of the candidates. -/
theorem foldl_maxStep_mem (ts : List Vec3) :
    ∀ t : Vec3, ts.foldl maxStep t ∈ t :: ts := by
  induction ts with
  | nil => intro t; simp
  | cons u ts ih =>
    intro t
    simp only [List.foldl_cons]
    have hcase : maxStep t u = u ∨ maxStep t u = t := by
      unfold maxStep
      split
      · exact Or.inl rfl
      · exact Or.inr rfl
    rcases hcase with h2 | h2
    · rw [h2]
      exact List.mem_cons_of_mem _ (ih u)
    · rw [h2]
      rcases List.mem_cons.mp (ih t) with h | h
      · exact List.mem_cons.mpr (Or.inl h)
      · exact List.mem_cons_of_mem _ (List.mem_cons_of_mem _ h)

/-- Helper: the max-fold bounds every candidate's x from above. -/
theorem foldl_maxStep_ge (ts : List Vec3) :
    ∀ t : Vec3, ∀ u ∈ t :: ts, u.x ≤ (ts.foldl maxStep t).x := by
  induction ts with
  | nil =>
    intro t u hu
    rw [List.mem_singleton.mp hu]
    exact le_refl _
  | cons v ts ih =>
    intro t u hu
    simp only [List.foldl_cons]
    have hstep_t : t.x ≤ (maxStep t v).x := by
      unfold maxStep
      split
      · next h => exact h
      · exact le_refl _
    have hstep_v : v.x ≤ (maxStep t v).x := by
      unfold maxStep
      split
      · exact le_refl _
      · next h => exact le_of_not_le h
    rcases List.mem_cons.mp hu with rfl | hu2
    · exact le_trans hstep_t (foldl_maxStep_seed_le ts _)
    · rcases List.mem_cons.mp hu2 with rfl | hu3
      · exact le_trans hstep_v (foldl_maxStep_seed_le ts _)
      · exact ih (maxStep t v) u (List.mem_cons_of_mem _ hu3)

/-- Helper: specification of the rightmost-position computation. -/
theorem max_by_x_spec (ps : List Vec3) (m : Vec3) (h : max_by_x ps = some m) :
    m ∈ ps ∧ ∀ u ∈ ps, u.x ≤ m.x := by
  cases ps with
  | nil => cases h
  | cons t ts =>
    unfold max_by_x at h
    injection h with h
    subst h
    exact ⟨foldl_maxStep_mem ts t, foldl_maxStep_ge ts t⟩

/-- Helper: filtering the survivors out of a pool headed by a crosser. -/
theorem mfilter_ge_cons_cross (L x : ℚ) (s : Multiset ℚ) (h : x < L) :
    Multiset.filter (fun y => ¬ y < L) (x ::ₘ s)
      = Multiset.filter (fun y => ¬ y < L) s := by
  apply Multiset.filter_cons_of_neg
  exact not_not_intro h

/-- Helper: filtering the survivors out of a pool headed by a survivor. -/
theorem mfilter_ge_cons_keep (L x : ℚ) (s : Multiset ℚ) (h : ¬ x < L) :
    Multiset.filter (fun y => ¬ y < L) (x ::ₘ s)
      = x ::ₘ Multiset.filter (fun y => ¬ y < L) s := by
  apply Multiset.filter_cons_of_pos
  exact h

/-- Helper: counting the crossers of a pool headed by a crosser. -/
theorem mcountP_lt_cons_cross (L x : ℚ) (s : Multiset ℚ) (h : x < L) :
    Multiset.countP (fun y => y < L) (x ::ₘ s)
      = Multiset.countP (fun y => y < L) s + 1 := by
  apply Multiset.countP_cons_of_pos
  exact h

/-- Helper: counting the crossers of a pool headed by a survivor. -/
theorem mcountP_lt_cons_keep (L x : ℚ) (s : Multiset ℚ) (h : ¬ x < L) :
    Multiset.countP (fun y => y < L) (x ::ₘ s)
      = Multiset.countP (fun y => y < L) s := by
  apply Multiset.countP_cons_of_neg
  exact h

/-- Helper: the x-multiset the recycling loop leaves behind — the pipes short
of the border keep their positions, and each of the `k` crossers receives the
next slot of the progression above the farther-position seed. -/
theorem reuse_go_xMs (L G : ℚ) (ps : List Entity) :
    ∀ f : Vec3,
      xMs (reuse_go L G f ps)
        = (xMs ps).filter (fun x => ¬ x < L)
          + shifts f.x G ((xMs ps).countP (fun x => x < L)) := by
  induction ps with
  | nil => intro f; simp [reuse_go, xMs, shifts]
  | cons p ps ih =>
    intro f
    have hxc : xMs (p :: ps) = p.translation.x ::ₘ xMs ps := rfl
    by_cases h : p.translation.x < L
    · rw [reuse_go_cons_cross L G f p ps h]
      have hL : xMs ({ p with translation := ⟨f.x + G, f.y, f.z⟩ } ::
            reuse_go L G ⟨f.x + G, f.y, f.z⟩ ps)
          = (f.x + G) ::ₘ xMs (reuse_go L G ⟨f.x + G, f.y, f.z⟩ ps) := rfl
      rw [hL, ih ⟨f.x + G, f.y, f.z⟩]
      rw [hxc, mfilter_ge_cons_cross L _ _ h, mcountP_lt_cons_cross L _ _ h]
      show (f.x + G) ::ₘ
          ((xMs ps).filter (fun x => ¬ x < L)
            + shifts (f.x + G) G ((xMs ps).countP (fun x => x < L)))
        = (xMs ps).filter (fun x => ¬ x < L)
            + shifts f.x G ((xMs ps).countP (fun x => x < L) + 1)
      rw [shifts]
      rw [← Multiset.singleton_add, ← Multiset.singleton_add]
      exact add_left_comm _ _ _
    · rw [reuse_go]
      rw [if_neg h]
      have hL : xMs (p :: reuse_go L G f ps)
          = p.translation.x ::ₘ xMs (reuse_go L G f ps) := rfl
      rw [hL, ih f, hxc, mfilter_ge_cons_keep L _ _ h, mcountP_lt_cons_keep L _ _ h]
      exact (Multiset.cons_add _ _ _).symm

/-- Helper: pointwise-equal functions map a list identically. -/
theorem list_map_congr {α β : Type} (l : List α) (f g : α → β) :
    (∀ a ∈ l, f a = g a) → l.map f = l.map g := by
  induction l with
  | nil => intro _; rfl
  | cons x l ih =>
    intro h
    simp only [List.map_cons]
    rw [h x (by simp), ih (fun a ha => h a (by simp [ha]))]

/-- Helper: membership in an arithmetic-progression list. -/
theorem mem_canonList {x a G : ℚ} {N : ℕ} :
    x ∈ canonList a G N ↔ ∃ i, i < N ∧ x = a + (i : ℚ) * G := by
  unfold canonList
  constructor
  · intro hx
    rcases List.mem_map.mp hx with ⟨i, hi, rfl⟩
    exact ⟨i, List.mem_range.mp hi, rfl⟩
  · rintro ⟨i, hi, rfl⟩
    exact List.mem_map.mpr ⟨i, List.mem_range.mpr hi, rfl⟩

/-- Helper: the last element of a nonempty arithmetic-progression list is a
member. -/
theorem canonList_last_mem (a G : ℚ) (N : ℕ) (hN : 0 < N) :
    a + ((N - 1 : ℕ) : ℚ) * G ∈ canonList a G N :=
  mem_canonList.mpr ⟨N - 1, by omega, rfl⟩

/-- Helper: the last element of an increasing arithmetic-progression list
bounds all members from above. -/
theorem canonList_le_last (a G : ℚ) (hG : 0 < G) (N : ℕ) (x : ℚ)
    (hx : x ∈ canonList a G N) : x ≤ a + ((N - 1 : ℕ) : ℚ) * G := by
  rcases mem_canonList.mp hx with ⟨i, hi, rfl⟩
  have hle : (i : ℚ) ≤ ((N - 1 : ℕ) : ℚ) := by
    have h2 : i ≤ N - 1 := by omega
    exact_mod_cast h2
  have := mul_le_mul_of_nonneg_right hle (le_of_lt hG)
  linarith

/-- Helper: the rightmost position over a pool whose x-multiset is a
`G`-spaced progression is exactly the progression's last element. -/
theorem max_x_eq_last (a G : ℚ) (hG : 0 < G) (N : ℕ) (hN : 0 < N)
    (ps : List Entity) (m : Vec3)
    (hpos : xMs ps = (canonList a G N : Multiset ℚ))
    (hmax : max_by_x (ps.map Entity.translation) = some m) :
    m.x = a + ((N - 1 : ℕ) : ℚ) * G := by
  obtain ⟨hmem, hub⟩ := max_by_x_spec _ _ hmax
  have hmx : m.x ∈ ps.map xpos := by
    rcases List.mem_map.mp hmem with ⟨e, he, rfl⟩
    exact List.mem_map.mpr ⟨e, he, rfl⟩
  have hmx2 : m.x ∈ canonList a G N := by
    have h2 : m.x ∈ xMs ps := Multiset.mem_coe.mpr hmx
    rw [hpos] at h2
    exact Multiset.mem_coe.mp h2
  have hle := canonList_le_last a G hG N _ hmx2
  have hlast : a + ((N - 1 : ℕ) : ℚ) * G ∈ ps.map xpos := by
    have h1 := canonList_last_mem a G N hN
    have h2 : a + ((N - 1 : ℕ) : ℚ) * G ∈ xMs ps := by
      rw [hpos]
      exact Multiset.mem_coe.mpr h1
    exact Multiset.mem_coe.mp h2
  rcases List.mem_map.mp hlast with ⟨e, he, hxe⟩
  have hge := hub e.translation (List.mem_map.mpr ⟨e, he, rfl⟩)
  rw [show e.translation.x = xpos e from rfl, hxe] at hge
  linarith

/-- Helper: whether a slot of the progression lies past the border, phrased
through the integer ceiling of the crossing index. -/
theorem canonList_cross_iff (L a G : ℚ) (hG : 0 < G) (i : ℕ) :
    a + (i : ℚ) * G < L ↔ (i : ℤ) < ⌈(L - a) / G⌉ := by
  rw [Int.lt_ceil]
  push_cast
  rw [lt_div_iff₀ hG]
  constructor <;> intro h <;> linarith

/-- Helper: filtering survivors out of an all-crossing list gives nothing. -/
theorem mfilter_all_cross (L : ℚ) (l : List ℚ) (h : ∀ x ∈ l, x < L) :
    (l : Multiset ℚ).filter (fun y => ¬ y < L) = 0 := by
  induction l with
  | nil => rfl
  | cons x l ih =>
    rw [← Multiset.cons_coe, mfilter_ge_cons_cross L _ _ (h x (by simp))]
    exact ih (fun y hy => h y (by simp [hy]))

/-- Helper: filtering survivors out of an all-surviving list is the
identity. -/
theorem mfilter_none_cross (L : ℚ) (l : List ℚ) (h : ∀ x ∈ l, ¬ x < L) :
    (l : Multiset ℚ).filter (fun y => ¬ y < L) = l := by
  induction l with
  | nil => rfl
  | cons x l ih =>
    rw [← Multiset.cons_coe, mfilter_ge_cons_keep L _ _ (h x (by simp)),
      ih (fun y hy => h y (by simp [hy])), Multiset.cons_coe]

/-- Helper: every element of an all-crossing list is counted. -/
theorem mcountP_all_cross (L : ℚ) (l : List ℚ) (h : ∀ x ∈ l, x < L) :
    (l : Multiset ℚ).countP (fun y => y < L) = l.length := by
  induction l with
  | nil => rfl
  | cons x l ih =>
    rw [← Multiset.cons_coe, mcountP_lt_cons_cross L _ _ (h x (by simp)),
      ih (fun y hy => h y (by simp [hy]))]
    rfl

/-- Helper: no element of an all-surviving list is counted. -/
theorem mcountP_none_cross (L : ℚ) (l : List ℚ) (h : ∀ x ∈ l, ¬ x < L) :
    (l : Multiset ℚ).countP (fun y => y < L) = 0 := by
  induction l with
  | nil => rfl
  | cons x l ih =>
    rw [← Multiset.cons_coe, mcountP_lt_cons_keep L _ _ (h x (by simp))]
    exact ih (fun y hy => h y (by simp [hy]))

/-- Helper: shifting an arithmetic-progression list shifts its start. -/
theorem canonList_map_add (c a G : ℚ) (N : ℕ) :
    (canonList a G N).map (fun x => x + c) = canonList (a + c) G N := by
  unfold canonList
  rw [List.map_map]
  have hfg : ((fun x => x + c) ∘ fun (i : ℕ) => a + (i : ℚ) * G)
      = (fun (i : ℕ) => a + c + (i : ℚ) * G) := by
    funext i
    show a + (i : ℚ) * G + c = a + c + (i : ℚ) * G
    ring
  rw [hfg]

/-- Helper: an arithmetic-progression list with a nonzero step has no
duplicates. -/
theorem canonList_nodup (a G : ℚ) (hG : G ≠ 0) (N : ℕ) :
    (canonList a G N).Nodup := by
  apply List.Nodup.map
  · intro i j hij
    have h2 : (i : ℚ) * G = (j : ℚ) * G := by
      have := hij
      dsimp at this
      linarith [this]
    have h3 : (i : ℚ) = (j : ℚ) := mul_right_cancel₀ hG h2
    exact_mod_cast h3
  · exact List.nodup_range N

/-- Helper: consecutive elements of an arithmetic-progression list differ by
exactly the step. -/
theorem canonList_chain (G : ℚ) (N : ℕ) :
    ∀ a, List.Chain' (fun u v => v = u + G) (canonList a G N) := by
  induction N with
  | zero => intro a; exact List.chain'_nil
  | succ N ih =>
    intro a
    rw [canonList_succ]
    apply List.chain'_cons'.mpr
    refine ⟨?_, ih (a + G)⟩
    intro y hy
    cases N with
    | zero => cases hy
    | succ M =>
      rw [canonList_succ] at hy
      simp only [List.head?_cons, Option.mem_def, Option.some.injEq] at hy
      rw [← hy]

/-- Helper: one run of the recycler on a pool whose x-positions form a
`G`-spaced progression of length `N` succeeds and leaves the x-positions a
`G`-spaced progression of length `N` again. -/
theorem reuse_pipes_preserves_canon (L G : ℚ) (hG : 0 < G) (N : ℕ) (hN : 0 < N)
    (ps : List Entity) (a : ℚ)
    (hpos : xMs ps = (canonList a G N : Multiset ℚ)) :
    ∃ qs, reuse_pipes L G ps = some qs ∧
      ∃ a2, xMs qs = (canonList a2 G N : Multiset ℚ) := by
  have hlen : ps.length = N := by
    have hc := congrArg Multiset.card hpos
    simpa [xMs, canonList, Multiset.coe_card] using hc
  obtain ⟨m, hm⟩ : ∃ m, max_by_x (ps.map Entity.translation) = some m := by
    cases hl : ps.map Entity.translation with
    | nil =>
      exfalso
      have h0 : ps.map Entity.translation = [] := hl
      rw [List.map_eq_nil_iff] at h0
      rw [h0] at hlen
      simp at hlen
      omega
    | cons t ts => exact ⟨ts.foldl maxStep t, rfl⟩
  have hmx : m.x = a + ((N - 1 : ℕ) : ℚ) * G := max_x_eq_last a G hG N hN ps m hpos hm
  obtain ⟨k, hkdef⟩ : ∃ k, k = min N (Int.toNat ⌈(L - a) / G⌉) := ⟨_, rfl⟩
  have hkN : k ≤ N := by rw [hkdef]; exact min_le_left _ _
  have hkt : k ≤ Int.toNat ⌈(L - a) / G⌉ := by rw [hkdef]; exact min_le_right _ _
  refine ⟨reuse_go L G m ps, ?_, ⟨a + (k : ℚ) * G, ?_⟩⟩
  · unfold reuse_pipes
    rw [hm]
  rw [reuse_go_xMs L G ps m, hpos]
  have hsplit : canonList a G N = canonList a G k ++ canonList (a + (k : ℚ) * G) G (N - k) := by
    have hkk : k + (N - k) = N := by omega
    calc canonList a G N = canonList a G (k + (N - k)) := by rw [hkk]
    _ = _ := canonList_split a G k (N - k)
  have hpart1 : ∀ x ∈ canonList a G k, x < L := by
    intro x hx
    rcases mem_canonList.mp hx with ⟨i, hi, rfl⟩
    apply (canonList_cross_iff L a G hG i).mpr
    have h1 : i < Int.toNat ⌈(L - a) / G⌉ := by omega
    exact Int.lt_toNat.mp h1
  have hpart2 : ∀ x ∈ canonList (a + (k : ℚ) * G) G (N - k), ¬ x < L := by
    intro x hx
    rcases mem_canonList.mp hx with ⟨i, hi, rfl⟩
    have hklt : k < N := by omega
    have hktoNat : k = Int.toNat ⌈(L - a) / G⌉ := by
      rcases le_or_lt (Int.toNat ⌈(L - a) / G⌉) N with hle | hlt2
      · rw [hkdef]
        exact min_eq_right hle
      · exfalso
        rw [hkdef] at hklt
        rw [min_eq_left (le_of_lt hlt2)] at hklt
        omega
    have hceil_le : ⌈(L - a) / G⌉ ≤ (k : ℤ) := by
      rw [hktoNat]
      exact Int.self_le_toNat _
    intro hcross
    have hx2 : a + (k : ℚ) * G + (i : ℚ) * G = a + ((k + i : ℕ) : ℚ) * G := by
      push_cast
      ring
    rw [hx2] at hcross
    have h3 := (canonList_cross_iff L a G hG (k + i)).mp hcross
    have h4 : ((k : ℤ) + (i : ℤ)) < ⌈(L - a) / G⌉ := by exact_mod_cast h3
    omega
  have hfilter : (↑(canonList a G N) : Multiset ℚ).filter (fun x => ¬ x < L)
      = (canonList (a + (k : ℚ) * G) G (N - k) : Multiset ℚ) := by
    rw [hsplit, ← Multiset.coe_add, Multiset.filter_add,
      mfilter_all_cross L _ hpart1, mfilter_none_cross L _ hpart2, zero_add]
  have hcount : (↑(canonList a G N) : Multiset ℚ).countP (fun x => x < L) = k := by
    rw [hsplit, ← Multiset.coe_add, Multiset.countP_add,
      mcountP_all_cross L _ hpart1, mcountP_none_cross L _ hpart2, add_zero]
    simp [canonList]
  rw [hfilter, hcount, shifts_eq_canon G k m.x, hmx]
  have harg : a + ((N - 1 : ℕ) : ℚ) * G + G = a + (k : ℚ) * G + ((N - k : ℕ) : ℚ) * G := by
    rw [Nat.cast_sub hN, Nat.cast_sub hkN]
    push_cast
    ring
  rw [harg]
  have hsplit2 : canonList (a + (k : ℚ) * G) G N
      = canonList (a + (k : ℚ) * G) G (N - k)
        ++ canonList (a + (k : ℚ) * G + ((N - k : ℕ) : ℚ) * G) G k := by
    have hkk : (N - k) + k = N := by omega
    calc canonList (a + (k : ℚ) * G) G N
        = canonList (a + (k : ℚ) * G) G ((N - k) + k) := by rw [hkk]
    _ = _ := canonList_split _ G (N - k) k
  rw [hsplit2, ← Multiset.coe_add]

/-- Helper: one integrator tick over a pool of identical movables shifts
every x-position by the same amount, so a `G`-spaced progression stays a
`G`-spaced progression, and all movables stay identical. -/
theorem apply_vel_acc_eq_map_integrate (dt : ℚ) (es : List Entity) :
    apply_velocity dt (apply_acceleration dt es) = es.map (integrate dt) := by
  unfold apply_velocity apply_acceleration integrate
  rw [List.map_map]
  rfl

/-- Helper: the x-position after one integrated tick of a single entity. -/
theorem xpos_integrate (dt : ℚ) (e : Entity) :
    xpos (integrate dt e)
      = xpos e + (e.movable.velocity.x + e.movable.acceleration.x * dt) * dt := rfl

/-- Helper: one integrator tick over a pool of identical movables shifts
every x-position by the same amount, so a `G`-spaced progression stays a
`G`-spaced progression, and all movables stay identical. -/
theorem integrate_canon (dt : ℚ) (es : List Entity) (mv : Movable)
    (hmv : ∀ e ∈ es, e.movable = mv) (a G : ℚ) (N : ℕ)
    (hpos : xMs es = (canonList a G N : Multiset ℚ)) :
    (∀ e ∈ apply_velocity dt (apply_acceleration dt es),
        e.movable = apply_acceleration_one dt mv) ∧
    xMs (apply_velocity dt (apply_acceleration dt es))
      = (canonList (a + (mv.velocity.x + mv.acceleration.x * dt) * dt) G N : Multiset ℚ) := by
  rw [apply_vel_acc_eq_map_integrate]
  constructor
  · intro e he
    rcases List.mem_map.mp he with ⟨e0, he0, rfl⟩
    show apply_acceleration_one dt e0.movable = apply_acceleration_one dt mv
    rw [hmv e0 he0]
  · unfold xMs
    rw [List.map_map]
    have hmap : es.map (xpos ∘ integrate dt)
        = es.map (fun e => xpos e + (mv.velocity.x + mv.acceleration.x * dt) * dt) := by
      apply list_map_congr
      intro e he
      show xpos (integrate dt e) = xpos e + (mv.velocity.x + mv.acceleration.x * dt) * dt
      rw [xpos_integrate, hmv e he]
    rw [hmap]
    have hmap2 : es.map (fun e => xpos e + (mv.velocity.x + mv.acceleration.x * dt) * dt)
        = (es.map xpos).map (fun x => x + (mv.velocity.x + mv.acceleration.x * dt) * dt) := by
      rw [List.map_map]
      rfl
    rw [hmap2]
    have hperm : (es.map xpos).Perm (canonList a G N) := Multiset.coe_eq_coe.mp hpos
    have hperm2 := hperm.map (fun x => x + (mv.velocity.x + mv.acceleration.x * dt) * dt)
    rw [Multiset.coe_eq_coe.mpr hperm2, canonList_map_add]

/-- Helper: preserved Movable maps transport the all-identical-movables
invariant. -/
theorem all_movable_of_map_eq (qs es2 : List Entity) (mv2 : Movable)
    (hmap : qs.map Entity.movable = es2.map Entity.movable)
    (h : ∀ e ∈ es2, e.movable = mv2) : ∀ e ∈ qs, e.movable = mv2 := by
  intro e he
  have h1 : e.movable ∈ qs.map Entity.movable := List.mem_map_of_mem _ he
  rw [hmap] at h1
  rcases List.mem_map.mp h1 with ⟨e2, he2, heq⟩
  rw [← heq]
  exact h e2 he2

/-- Helper: one full pipe tick (integration plus recycling) succeeds on a
pool satisfying the spacing invariant and preserves it. -/
theorem pipeTick_preserves_inv (L G dt : ℚ) (hG : 0 < G) (N : ℕ) (hN : 0 < N)
    (es : List Entity) (hinv : PoolInv G N es) :
    ∃ out, pipeTick L G dt es = some out ∧ PoolInv G N out := by
  obtain ⟨⟨mv, hmv⟩, a, hpos⟩ := hinv
  obtain ⟨hmv2, hpos2⟩ := integrate_canon dt es mv hmv a G N hpos
  obtain ⟨qs, hq, a2, hq2⟩ := reuse_pipes_preserves_canon L G hG N hN _ _ hpos2
  refine ⟨qs, hq, ⟨apply_acceleration_one dt mv, ?_⟩, ⟨a2, hq2⟩⟩
  exact all_movable_of_map_eq qs _ _ (reuse_pipes_map_movable L G _ qs hq) hmv2

/-- Helper: any number of pipe ticks succeeds from a pool satisfying the
spacing invariant and preserves it. -/
theorem runTicks_preserves_inv (L G : ℚ) (hG : 0 < G) (N : ℕ) (hN : 0 < N) :
    ∀ (dts : List ℚ) (es : List Entity), PoolInv G N es →
      ∃ out, runTicks L G dts es = some out ∧ PoolInv G N out := by
  intro dts
  induction dts with
  | nil => exact fun es h => ⟨es, rfl, h⟩
  | cons dt dts ih =>
    intro es h
    obtain ⟨mid, hmid, hinv⟩ := pipeTick_preserves_inv L G dt hG N hN es h
    obtain ⟨out, hout, hinv2⟩ := ih mid hinv
    refine ⟨out, ?_, hinv2⟩
    show (match pipeTick L G dt es with
      | none => none
      | some es2 => runTicks L G dts es2) = some out
    rw [hmid]
    exact hout

/-- Helper: the pool spawned by `startup` satisfies the spacing invariant:
ten pipes, identical movables, x-positions `right_border + i * PIPE_GAP`. -/
theorem startupPipes_inv (ys : ℕ → ℚ) : PoolInv PIPE_GAP 10 (startupPipes ys) := by
  constructor
  · refine ⟨pipeMovable, ?_⟩
    intro e he
    rcases List.mem_map.mp he with ⟨i, _, rfl⟩
    rfl
  · refine ⟨right_border, ?_⟩
    unfold xMs startupPipes
    rw [List.map_map]
    rfl

/-- C8: starting from the pool `startup` spawns (N = 10 obstacles spaced by
`PIPE_GAP`), after any sequence of ticks — integration with arbitrary
per-tick durations followed by recycling — the multiset of obstacle
x-positions is again an increasing `PIPE_GAP`-spaced progression of length
10 (consecutive sorted positions differ by exactly the gap), and no two
obstacles ever have the same x-position. -/
theorem obstacle_ring_spacing (ys : ℕ → ℚ) (dts : List ℚ) :
    ∃ (out : List Entity) (a2 : ℚ),
      runTicks left_border PIPE_GAP dts (startupPipes ys) = some out ∧
      xMs out = (canonList a2 PIPE_GAP 10 : Multiset ℚ) ∧
      List.Chain' (fun u v => v = u + PIPE_GAP) (canonList a2 PIPE_GAP 10) ∧
      (out.map xpos).Nodup := by
  obtain ⟨out, hrun, _, a2, hpos⟩ :=
    runTicks_preserves_inv left_border PIPE_GAP (by norm_num [PIPE_GAP]) 10
      (by norm_num) dts (startupPipes ys) (startupPipes_inv ys)
  refine ⟨out, a2, hrun, hpos, canonList_chain PIPE_GAP 10 a2, ?_⟩
  have hnd : (canonList a2 PIPE_GAP 10).Nodup :=
    canonList_nodup a2 PIPE_GAP (by norm_num [PIPE_GAP]) 10
  have h2 : ((out.map xpos : List ℚ) : Multiset ℚ).Nodup := by
    show (xMs out).Nodup
    rw [hpos]
    exact Multiset.coe_nodup.mpr hnd
  exact Multiset.coe_nodup.mp h2

end FlappyCore
